import Mathlib

/-!
Shallow embedding of the balance-computation core of the expense-sharing
application (`DatabaseManager.calculate_balances` in `expense1.py`, lines
301–344), together with proofs of the claims about it.

The Python code works over `defaultdict(float)` mappings and in-place
mutated sorted lists.  Here amounts are modelled as exact rationals `ℚ`
(the tolerance `ε = 0.01` exists in the source precisely to absorb numeric
drift), users as natural-number identifiers, and the insertion-ordered
Python `dict` as an association list with unique keys.  The two-cursor
`while` loop of step 3 of the source is modelled by `simpLoopIdx`, a direct
index-based translation; since Python's `while` has no structural measure,
`simpLoopIdx` carries a fuel argument, and the top level passes fuel
`len(debtors) + len(creditors)`, which is proved sufficient
(`simplifyDebts_fuel_stable`): with that much fuel the loop always reaches
its exit condition, so the fuel never alters the semantics at the call site.
-/

namespace ExpenseShare

/-- User identifiers: opaque stable ids, modelled as naturals. -/
abbrev UserId := ℕ

/-- The tolerance constant `0.01` used throughout `calculate_balances`. -/
def eps : ℚ := 1 / 100

/-- A row `(payer_id, user_id, amount)` of the join in step 1, or a row
`(from_user_id, to_user_id, amount)` of the `settlements` table in step 2,
or a transfer-shaped triple. -/
abbrev Row := UserId × UserId × ℚ

/-- `defaultdict(float)`-style update of an insertion-ordered association
list: add `d` to the value at key `k`; if `k` is absent, append `(k, 0 + d)`
at the end (Python dicts preserve insertion order, and `defaultdict`
materialises a missing key with value `0.0` on first access). -/
def updAL : List (UserId × ℚ) → UserId → ℚ → List (UserId × ℚ)
  | [], k, d => [(k, d)]
  | (k0, v) :: rest, k, d =>
    if k0 = k then (k0, v + d) :: rest else (k0, v) :: updAL rest k d

/-- Lookup in an association list with the `defaultdict` convention that an
absent key reads as `0`. -/
def lookupAL : List (UserId × ℚ) → UserId → ℚ
  | [], _ => 0
  | (k0, v) :: rest, k => if k0 = k then v else lookupAL rest k

/-- The keys of an association list, in insertion order. -/
def keysAL (m : List (UserId × ℚ)) : List UserId :=
  m.map Prod.fst

/-- Sum of all values of an association list. -/
def sumAL (m : List (UserId × ℚ)) : ℚ :=
  (m.map Prod.snd).sum

/-- Step 1 of `calculate_balances`, one row: `if pid == uid: continue;
net[pid] += amt; net[uid] -= amt`. -/
def applySplit (net : List (UserId × ℚ)) (r : Row) : List (UserId × ℚ) :=
  if r.1 = r.2.1 then net else updAL (updAL net r.1 r.2.2) r.2.1 (-r.2.2)

/-- Step 2 of `calculate_balances`, one row: `net[fid] += amt;
net[tid] -= amt`. -/
def applySettlement (net : List (UserId × ℚ)) (r : Row) : List (UserId × ℚ) :=
  updAL (updAL net r.1 r.2.2) r.2.1 (-r.2.2)

/-- The net-balance aggregator (steps 1–2 of `calculate_balances`): fold
every expense-split row, then every settlement row, into the
`net = defaultdict(float)` mapping. -/
def computeNetBalances (splits settlements : List Row) : List (UserId × ℚ) :=
  settlements.foldl applySettlement (splits.foldl applySplit [])

/-- `sorted([(k, v) for k, v in net.items() if v < -0.01], key=lambda x: x[1])`:
the debtors, ascending by balance (Python's sort is stable, as is
`List.insertionSort`). -/
def debtorsOf (net : List (UserId × ℚ)) : List (UserId × ℚ) :=
  List.insertionSort (fun a b => a.2 ≤ b.2) (net.filter fun p => p.2 < -eps)

/-- `sorted([(k, v) for k, v in net.items() if v > 0.01], key=lambda x: x[1],
reverse=True)`: the creditors, descending by balance.  Python's
`reverse=True` sort is stable (ties keep insertion order), which matches a
stable sort under the reversed comparison. -/
def creditorsOf (net : List (UserId × ℚ)) : List (UserId × ℚ) :=
  List.insertionSort (fun a b => b.2 ≤ a.2) (net.filter fun p => eps < p.2)

/-- Direct index-based translation of the greedy `while` loop of step 3:

```
while i < len(debtors) and j < len(creditors):
    did, damt = debtors[i]; cid, camt = creditors[j]
    amt = min(abs(damt), camt)
    simplified.append((did, cid, amt))
    damt += amt; camt -= amt
    if abs(damt) < 0.01: i += 1
    else: debtors[i] = (did, damt)
    if abs(camt) < 0.01: j += 1
    else: creditors[j] = (cid, camt)
```

The fuel argument only serves Lean's termination checking; the caller
passes `len(debtors) + len(creditors)`, proved sufficient below. -/
def simpLoopIdx : ℕ → ℕ → ℕ → List (UserId × ℚ) → List (UserId × ℚ) → List Row
  | 0, _, _, _, _ => []
  | fuel + 1, i, j, ds, cs =>
    if i < ds.length ∧ j < cs.length then
      let d := ds.getD i (0, 0)
      let c := cs.getD j (0, 0)
      let a := min |d.2| c.2
      let dv := d.2 + a
      let cv := c.2 - a
      (d.1, c.1, a) ::
        simpLoopIdx fuel
          (if |dv| < eps then i + 1 else i)
          (if |cv| < eps then j + 1 else j)
          (if |dv| < eps then ds else ds.set i (d.1, dv))
          (if |cv| < eps then cs else cs.set j (c.1, cv))
    else []

/-- The same greedy walk in cursor-free form: the lists are the suffixes of
`debtors`/`creditors` from the cursors on (entries before a cursor are never
read again), advancing a cursor drops a head, an in-place write replaces a
head.  Returns the emitted transfers together with the final remaining
debtor and creditor suffixes.  Advancement uses the source's strict test
`abs(residual) < 0.01`. -/
def simpWalkSt : ℕ → List (UserId × ℚ) → List (UserId × ℚ) →
    List Row × List (UserId × ℚ) × List (UserId × ℚ)
  | 0, ds, cs => ([], ds, cs)
  | _ + 1, [], cs => ([], [], cs)
  | _ + 1, d :: ds, [] => ([], d :: ds, [])
  | fuel + 1, d :: ds, c :: cs =>
    let a := min |d.2| c.2
    let dv := d.2 + a
    let cv := c.2 - a
    let rest := simpWalkSt fuel
      (if |dv| < eps then ds else (d.1, dv) :: ds)
      (if |cv| < eps then cs else (c.1, cv) :: cs)
    ((d.1, c.1, a) :: rest.1, rest.2)

/-- The greedy walk as the specification describes it in §4.2 step 4:
"Advance the debtor cursor when the debtor's remaining balance has
|value| ≤ ε; advance the creditor cursor symmetrically" — i.e. with the
NON-strict test `|residual| ≤ ε` in place of the source's strict
`abs(residual) < 0.01`.  Used to compare the spec's wording with the code. -/
def specWalkLe : ℕ → List (UserId × ℚ) → List (UserId × ℚ) → List Row
  | 0, _, _ => []
  | _ + 1, [], _ => []
  | _ + 1, _ :: _, [] => []
  | fuel + 1, d :: ds, c :: cs =>
    let a := min |d.2| c.2
    let dv := d.2 + a
    let cv := c.2 - a
    (d.1, c.1, a) ::
      specWalkLe fuel
        (if |dv| ≤ eps then ds else (d.1, dv) :: ds)
        (if |cv| ≤ eps then cs else (c.1, cv) :: cs)

/-- Step 3 of `calculate_balances`: partition and sort the net balances,
then run the greedy walk.  Fuel `len(debtors) + len(creditors)` is proved
sufficient (each iteration retires at least one list entry). -/
def simplifyDebts (net : List (UserId × ℚ)) : List Row :=
  let debtors := debtorsOf net
  let creditors := creditorsOf net
  simpLoopIdx (debtors.length + creditors.length) 0 0 debtors creditors

/-- One step of the final filtering loop: `if f == user_id: res[t] -= a;
elif t == user_id: res[f] += a` over `res = defaultdict(float)`. -/
def projectStep (u : UserId) (res : List (UserId × ℚ)) (t : Row) :
    List (UserId × ℚ) :=
  if t.1 = u then updAL res t.2.1 (-t.2.2)
  else if t.2.1 = u then updAL res t.1 t.2.2
  else res

/-- The balance projector (step "Filter for current user" of
`calculate_balances`). -/
def projectForUser (ts : List Row) (u : UserId) : List (UserId × ℚ) :=
  ts.foldl (projectStep u) []

/-- `DatabaseManager.calculate_balances(user_id)`, as a pure function of the
expense-split rows and settlement rows it reads. -/
def calculate_balances (splits settlements : List Row) (u : UserId) :
    List (UserId × ℚ) :=
  projectForUser (simplifyDebts (computeNetBalances splits settlements)) u

/-- Applying a list of transfers as settlements against a net-balance
mapping (claim C1's operation: `from` gains `amount`, `to` loses `amount` —
exactly the aggregator's settlement step). -/
def applyAsSettlements (net : List (UserId × ℚ)) (ts : List Row) :
    List (UserId × ℚ) :=
  ts.foldl applySettlement net

/-- The total effect of a transfer list on user `u`'s balance when each
transfer is applied as a settlement. -/
def deltaOf (ts : List Row) (u : UserId) : ℚ :=
  (ts.map fun t => (if t.1 = u then t.2.2 else 0) +
    (if t.2.1 = u then -t.2.2 else 0)).sum

/-- Distinctness of the ordered (debtor, creditor) pairs of two transfers. -/
def PairNe (s t : Row) : Prop :=
  (s.1, s.2.1) ≠ (t.1, t.2.1)

/-- The debtor entries still unprocessed (at or beyond the final cursor
position) when the source's greedy loop exits, in suffix form. -/
def walkFinalDebtors (net : List (UserId × ℚ)) : List (UserId × ℚ) :=
  (simpWalkSt ((debtorsOf net).length + (creditorsOf net).length)
    (debtorsOf net) (creditorsOf net)).2.1

/-- The creditor entries still unprocessed when the source's greedy loop
exits, in suffix form. -/
def walkFinalCreditors (net : List (UserId × ℚ)) : List (UserId × ℚ) :=
  (simpWalkSt ((debtorsOf net).length + (creditorsOf net).length)
    (debtorsOf net) (creditorsOf net)).2.2

theorem eps_pos : 0 < eps := by norm_num [eps]

theorem lookupAL_updAL (m : List (UserId × ℚ)) (k : UserId) (d : ℚ)
    (x : UserId) :
    lookupAL (updAL m k d) x = lookupAL m x + (if k = x then d else 0) := by
  induction m with
  | nil =>
    by_cases hkx : k = x
    · subst hkx; simp [updAL, lookupAL]
    · simp [updAL, lookupAL, hkx]
  | cons p rest ih =>
    obtain ⟨k0, v⟩ := p
    simp only [updAL]
    by_cases h0 : k0 = k
    · subst h0
      by_cases hx : k0 = x
      · simp [lookupAL, hx]
      · simp [lookupAL, hx]
    · simp only [if_neg h0]
      by_cases hx : k0 = x
      · have hkx : ¬ k = x := fun h => h0 (hx.trans h.symm)
        simp [lookupAL, hx, hkx]
      · simp [lookupAL, hx, ih]

theorem mem_keysAL_updAL (m : List (UserId × ℚ)) (k : UserId) (d : ℚ)
    (x : UserId) :
    x ∈ keysAL (updAL m k d) ↔ x ∈ keysAL m ∨ x = k := by
  induction m with
  | nil => simp [updAL, keysAL]
  | cons p rest ih =>
    obtain ⟨k0, v⟩ := p
    simp only [updAL]
    by_cases h0 : k0 = k
    · subst h0
      rw [if_pos rfl]
      simp only [keysAL, List.map_cons, List.mem_cons]
      tauto
    · rw [if_neg h0]
      simp only [keysAL, List.map_cons, List.mem_cons]
      simp only [keysAL] at ih
      rw [ih]
      tauto

theorem nodup_keysAL_updAL (m : List (UserId × ℚ)) (k : UserId) (d : ℚ)
    (h : (keysAL m).Nodup) : (keysAL (updAL m k d)).Nodup := by
  induction m with
  | nil => simp [updAL, keysAL]
  | cons p rest ih =>
    obtain ⟨k0, v⟩ := p
    simp only [keysAL, List.map_cons, List.nodup_cons] at h
    simp only [updAL]
    by_cases h0 : k0 = k
    · subst h0
      simpa [keysAL, List.nodup_cons] using h
    · simp only [if_neg h0, keysAL, List.map_cons, List.nodup_cons]
      refine ⟨fun hmem => ?_, ih h.2⟩
      rcases (mem_keysAL_updAL rest k d k0).mp hmem with h' | h'
      · exact h.1 h'
      · exact h0 h'

theorem sumAL_updAL (m : List (UserId × ℚ)) (k : UserId) (d : ℚ) :
    sumAL (updAL m k d) = sumAL m + d := by
  induction m with
  | nil => simp [updAL, sumAL]
  | cons p rest ih =>
    obtain ⟨k0, v⟩ := p
    simp only [updAL]
    by_cases h0 : k0 = k
    · subst h0; simp [sumAL]; ring
    · simp only [if_neg h0, sumAL, List.map_cons, List.sum_cons] at ih ⊢
      rw [ih]; ring

theorem mem_keysAL_of_mem {m : List (UserId × ℚ)} {k : UserId} {v : ℚ}
    (h : (k, v) ∈ m) : k ∈ keysAL m :=
  List.mem_map_of_mem Prod.fst h

theorem exists_of_mem_keysAL {m : List (UserId × ℚ)} {k : UserId}
    (h : k ∈ keysAL m) : (k, lookupAL m k) ∈ m := by
  induction m with
  | nil => simp [keysAL] at h
  | cons p rest ih =>
    obtain ⟨k0, v⟩ := p
    simp only [keysAL, List.map_cons, List.mem_cons] at h
    by_cases h0 : k0 = k
    · subst h0; simp [lookupAL]
    · rcases h with h | h
      · exact absurd h.symm h0
      · simp only [lookupAL, if_neg h0]
        exact List.mem_cons_of_mem _ (ih h)

theorem lookupAL_eq_zero_of_not_mem {m : List (UserId × ℚ)} {k : UserId}
    (h : k ∉ keysAL m) : lookupAL m k = 0 := by
  induction m with
  | nil => simp [lookupAL]
  | cons p rest ih =>
    obtain ⟨k0, v⟩ := p
    simp only [keysAL, List.map_cons, List.mem_cons, not_or] at h
    have h1 : ¬ k0 = k := fun he => h.1 he.symm
    simp only [lookupAL, if_neg h1]
    exact ih (by simpa [keysAL] using h.2)

theorem lookupAL_eq_of_mem {m : List (UserId × ℚ)} {k : UserId} {v : ℚ}
    (hnd : (keysAL m).Nodup) (h : (k, v) ∈ m) : lookupAL m k = v := by
  induction m with
  | nil => simp at h
  | cons p rest ih =>
    obtain ⟨k0, v0⟩ := p
    simp only [keysAL, List.map_cons, List.nodup_cons] at hnd
    rcases List.mem_cons.mp h with h | h
    · obtain ⟨h1, h2⟩ := Prod.mk.injEq .. ▸ h
      simp [lookupAL, h1.symm, h2]
    · have hk0 : k0 ≠ k := by
        intro he; subst he
        exact hnd.1 (mem_keysAL_of_mem h)
      simp only [lookupAL, if_neg hk0]
      exact ih hnd.2 h

theorem val_eq_of_mem_of_mem {m : List (UserId × ℚ)} {k : UserId} {v1 v2 : ℚ}
    (hnd : (keysAL m).Nodup) (h1 : (k, v1) ∈ m) (h2 : (k, v2) ∈ m) :
    v1 = v2 := by
  rw [← lookupAL_eq_of_mem hnd h1, ← lookupAL_eq_of_mem hnd h2]

theorem keysAL_append (m1 m2 : List (UserId × ℚ)) :
    keysAL (m1 ++ m2) = keysAL m1 ++ keysAL m2 := by
  simp [keysAL]

theorem lookupAL_append (m1 m2 : List (UserId × ℚ)) (k : UserId) :
    lookupAL (m1 ++ m2) k =
      if k ∈ keysAL m1 then lookupAL m1 k else lookupAL m2 k := by
  induction m1 with
  | nil => simp [keysAL, lookupAL]
  | cons p rest ih =>
    obtain ⟨k0, v⟩ := p
    by_cases h0 : k0 = k
    · subst h0; simp [lookupAL, keysAL]
    · have hkk0 : ¬ k = k0 := fun h => h0 h.symm
      by_cases hm : k ∈ keysAL rest
      · have hmem : k ∈ keysAL ((k0, v) :: rest) := by
          simp only [keysAL, List.map_cons, List.mem_cons]
          exact Or.inr (by simpa [keysAL] using hm)
        simp [List.cons_append, lookupAL, if_neg h0, ih, hm, hmem]
      · have hmem : k ∉ keysAL ((k0, v) :: rest) := by
          simp only [keysAL, List.map_cons, List.mem_cons, not_or]
          exact ⟨hkk0, by simpa [keysAL] using hm⟩
        simp [List.cons_append, lookupAL, if_neg h0, ih, hm, hmem]

theorem nodup_keysAL_applySplit (net : List (UserId × ℚ)) (r : Row)
    (h : (keysAL net).Nodup) : (keysAL (applySplit net r)).Nodup := by
  unfold applySplit
  split
  · exact h
  · exact nodup_keysAL_updAL _ _ _ (nodup_keysAL_updAL _ _ _ h)

theorem nodup_keysAL_applySettlement (net : List (UserId × ℚ)) (r : Row)
    (h : (keysAL net).Nodup) : (keysAL (applySettlement net r)).Nodup :=
  nodup_keysAL_updAL _ _ _ (nodup_keysAL_updAL _ _ _ h)

theorem nodup_keysAL_foldl_applySplit (l : List Row)
    (net : List (UserId × ℚ)) (h : (keysAL net).Nodup) :
    (keysAL (l.foldl applySplit net)).Nodup := by
  induction l generalizing net with
  | nil => exact h
  | cons r rest ih => exact ih _ (nodup_keysAL_applySplit net r h)

theorem nodup_keysAL_foldl_applySettlement (l : List Row)
    (net : List (UserId × ℚ)) (h : (keysAL net).Nodup) :
    (keysAL (l.foldl applySettlement net)).Nodup := by
  induction l generalizing net with
  | nil => exact h
  | cons r rest ih => exact ih _ (nodup_keysAL_applySettlement net r h)

/-- The `net` mapping built by the aggregator is a genuine mapping: no key
occurs twice. -/
theorem nodup_keysAL_computeNetBalances (splits settlements : List Row) :
    (keysAL (computeNetBalances splits settlements)).Nodup :=
  nodup_keysAL_foldl_applySettlement settlements _
    (nodup_keysAL_foldl_applySplit splits [] (by simp [keysAL]))

theorem sumAL_applySplit (net : List (UserId × ℚ)) (r : Row) :
    sumAL (applySplit net r) = sumAL net := by
  unfold applySplit
  split
  · rfl
  · rw [sumAL_updAL, sumAL_updAL]; ring

theorem sumAL_applySettlement (net : List (UserId × ℚ)) (r : Row) :
    sumAL (applySettlement net r) = sumAL net := by
  unfold applySettlement
  rw [sumAL_updAL, sumAL_updAL]; ring

theorem sumAL_foldl_applySplit (l : List Row) (net : List (UserId × ℚ)) :
    sumAL (l.foldl applySplit net) = sumAL net := by
  induction l generalizing net with
  | nil => rfl
  | cons r rest ih => rw [List.foldl_cons, ih, sumAL_applySplit]

theorem sumAL_foldl_applySettlement (l : List Row) (net : List (UserId × ℚ)) :
    sumAL (l.foldl applySettlement net) = sumAL net := by
  induction l generalizing net with
  | nil => rfl
  | cons r rest ih => rw [List.foldl_cons, ih, sumAL_applySettlement]

/-- Exact conservation: the aggregated net balances sum to exactly `0`. -/
theorem sumAL_computeNetBalances (splits settlements : List Row) :
    sumAL (computeNetBalances splits settlements) = 0 := by
  unfold computeNetBalances
  rw [sumAL_foldl_applySettlement, sumAL_foldl_applySplit]
  rfl

/-- Applying a transfer list as settlements changes each user's balance by
exactly `deltaOf`. -/
theorem lookupAL_applyAsSettlements (net : List (UserId × ℚ)) (ts : List Row)
    (u : UserId) :
    lookupAL (applyAsSettlements net ts) u = lookupAL net u + deltaOf ts u := by
  induction ts generalizing net with
  | nil => simp [applyAsSettlements, deltaOf]
  | cons t rest ih =>
    have hstep : lookupAL (applySettlement net t) u =
        lookupAL net u + ((if t.1 = u then t.2.2 else 0) +
          (if t.2.1 = u then -t.2.2 else 0)) := by
      unfold applySettlement
      rw [lookupAL_updAL, lookupAL_updAL]
      ring
    have : applyAsSettlements net (t :: rest) =
        applyAsSettlements (applySettlement net t) rest := rfl
    rw [this, ih, hstep]
    simp only [deltaOf, List.map_cons, List.sum_cons]
    ring

/-- Transfers none of whose endpoints is `u` do not move `u`'s balance. -/
theorem deltaOf_eq_zero {ts : List Row} {u : UserId}
    (h : ∀ t ∈ ts, t.1 ≠ u ∧ t.2.1 ≠ u) : deltaOf ts u = 0 := by
  unfold deltaOf
  apply List.sum_eq_zero
  intro x hx
  rcases List.mem_map.mp hx with ⟨t, ht, rfl⟩
  rcases h t ht with ⟨h1, h2⟩
  simp [h1, h2]

theorem mem_debtorsOf {net : List (UserId × ℚ)} {p : UserId × ℚ} :
    p ∈ debtorsOf net ↔ p ∈ net ∧ p.2 < -eps := by
  unfold debtorsOf
  rw [List.mem_insertionSort]
  simp [List.mem_filter]

theorem mem_creditorsOf {net : List (UserId × ℚ)} {p : UserId × ℚ} :
    p ∈ creditorsOf net ↔ p ∈ net ∧ eps < p.2 := by
  unfold creditorsOf
  rw [List.mem_insertionSort]
  simp [List.mem_filter]

theorem nodup_keysAL_debtorsOf {net : List (UserId × ℚ)}
    (h : (keysAL net).Nodup) : (keysAL (debtorsOf net)).Nodup := by
  have hperm : (debtorsOf net).Perm (net.filter fun p => p.2 < -eps) :=
    List.perm_insertionSort _ _
  have hsub : (net.filter fun p => p.2 < -eps).Sublist net :=
    List.filter_sublist _
  have hnd : (keysAL (net.filter fun p => p.2 < -eps)).Nodup :=
    List.Nodup.sublist (hsub.map Prod.fst) h
  exact ((hperm.map Prod.fst).nodup_iff).mpr hnd

theorem nodup_keysAL_creditorsOf {net : List (UserId × ℚ)}
    (h : (keysAL net).Nodup) : (keysAL (creditorsOf net)).Nodup := by
  have hperm : (creditorsOf net).Perm (net.filter fun p => eps < p.2) :=
    List.perm_insertionSort _ _
  have hsub : (net.filter fun p => eps < p.2).Sublist net :=
    List.filter_sublist _
  have hnd : (keysAL (net.filter fun p => eps < p.2)).Nodup :=
    List.Nodup.sublist (hsub.map Prod.fst) h
  exact ((hperm.map Prod.fst).nodup_iff).mpr hnd

theorem exists_val_of_mem_keysAL {m : List (UserId × ℚ)} {k : UserId}
    (h : k ∈ keysAL m) : ∃ v, (k, v) ∈ m := by
  rcases List.mem_map.mp h with ⟨p, hp, he⟩
  obtain ⟨a, b⟩ := p
  subst he
  exact ⟨b, hp⟩

/-- The debtor and creditor lists taken together never repeat a key, when
`net` is a genuine mapping. -/
theorem keyInv_of_nodup {net : List (UserId × ℚ)}
    (h : (keysAL net).Nodup) :
    (keysAL (debtorsOf net ++ creditorsOf net)).Nodup := by
  rw [keysAL_append, List.nodup_append]
  refine ⟨nodup_keysAL_debtorsOf h, nodup_keysAL_creditorsOf h, ?_⟩
  intro a ha hb
  rcases exists_val_of_mem_keysAL ha with ⟨v1, hv1⟩
  rcases exists_val_of_mem_keysAL hb with ⟨v2, hv2⟩
  rcases mem_debtorsOf.mp hv1 with ⟨hm1, hlt⟩
  rcases mem_creditorsOf.mp hv2 with ⟨hm2, hgt⟩
  have := val_eq_of_mem_of_mem h hm1 hm2
  subst this
  have := eps_pos
  linarith

theorem kept_le_neg_eps {x : ℚ} (h0 : x ≤ 0) (h : ¬ |x| < eps) : x ≤ -eps := by
  rw [abs_of_nonpos h0] at h; linarith

theorem kept_ge_eps {x : ℚ} (h0 : 0 ≤ x) (h : ¬ |x| < eps) : eps ≤ x := by
  rw [abs_of_nonneg h0] at h; linarith

theorem step_amount_ge {d2 c2 : ℚ} (hd : d2 ≤ -eps) (hc : eps ≤ c2) :
    eps ≤ min |d2| c2 := by
  have h0 : d2 ≤ 0 := le_trans hd (by linarith [eps_pos])
  rw [abs_of_nonpos h0]
  exact le_min (by linarith) hc

theorem step_dv_nonpos {d2 c2 : ℚ} (h0 : d2 ≤ 0) :
    d2 + min |d2| c2 ≤ 0 := by
  rw [abs_of_nonpos h0]
  have := min_le_left (-d2) c2
  linarith

theorem step_cv_nonneg (d2 c2 : ℚ) : 0 ≤ c2 - min |d2| c2 := by
  have := min_le_right |d2| c2
  linarith

/-- The keys of the next debtor (or creditor) list of a walk step form a
sublist of the current keys. -/
theorem keysAL_step_sublist (d : UserId × ℚ) (v : ℚ)
    (ds : List (UserId × ℚ)) (cnd : Prop) [Decidable cnd] :
    (keysAL (if cnd then ds else (d.1, v) :: ds)).Sublist (keysAL (d :: ds)) := by
  split
  · exact List.sublist_cons_self _ _
  · exact List.Sublist.refl _

/-- Every transfer the walk emits goes from a key of the current debtor list
to a key of the current creditor list. -/
theorem walk_endpoints (fuel : ℕ) :
    ∀ (ds cs : List (UserId × ℚ)) (t : Row),
      t ∈ (simpWalkSt fuel ds cs).1 →
      t.1 ∈ keysAL ds ∧ t.2.1 ∈ keysAL cs := by
  induction fuel with
  | zero => intro ds cs t ht; simp [simpWalkSt] at ht
  | succ n ih =>
    intro ds cs t ht
    match ds, cs with
    | [], cs => simp [simpWalkSt] at ht
    | d :: ds, [] => simp [simpWalkSt] at ht
    | d :: ds, c :: cs =>
      simp only [simpWalkSt, List.mem_cons] at ht
      rcases ht with rfl | hmem
      · constructor <;> simp [keysAL]
      · rcases ih _ _ t hmem with ⟨h1, h2⟩
        exact ⟨(keysAL_step_sublist d _ ds _).subset h1,
          (keysAL_step_sublist c _ cs _).subset h2⟩

/-- Preservation of the debtor-side value invariant across one walk step. -/
theorem debtor_inv_step {d : UserId × ℚ} {ds : List (UserId × ℚ)} {c2 : ℚ}
    (hd : d.2 ≤ -eps) (hds : ∀ p ∈ ds, p.2 ≤ -eps) :
    ∀ p ∈ (if |d.2 + min |d.2| c2| < eps then ds
      else (d.1, d.2 + min |d.2| c2) :: ds), p.2 ≤ -eps := by
  by_cases hcnd : |d.2 + min |d.2| c2| < eps
  · rw [if_pos hcnd]; exact hds
  · rw [if_neg hcnd]
    intro p hp
    rcases List.mem_cons.mp hp with rfl | hp
    · exact kept_le_neg_eps (step_dv_nonpos (by linarith [eps_pos])) hcnd
    · exact hds p hp

/-- Preservation of the creditor-side value invariant across one walk step. -/
theorem creditor_inv_step {c : UserId × ℚ} {cs : List (UserId × ℚ)} {d2 : ℚ}
    (hc : eps ≤ c.2) (hcs : ∀ p ∈ cs, eps ≤ p.2) :
    ∀ p ∈ (if |c.2 - min |d2| c.2| < eps then cs
      else (c.1, c.2 - min |d2| c.2) :: cs), eps ≤ p.2 := by
  by_cases hcnd : |c.2 - min |d2| c.2| < eps
  · rw [if_pos hcnd]; exact hcs
  · rw [if_neg hcnd]
    intro p hp
    rcases List.mem_cons.mp hp with rfl | hp
    · exact kept_ge_eps (step_cv_nonneg d2 c.2) hcnd
    · exact hcs p hp

/-- In each step of the greedy walk at least one residual reaches `0`, so at
least one cursor advances. -/
theorem step_advances {d2 c2 : ℚ} (hd : d2 ≤ -eps) (hc : eps ≤ c2) :
    |d2 + min |d2| c2| < eps ∨ |c2 - min |d2| c2| < eps := by
  have h0 : d2 ≤ 0 := by linarith [eps_pos]
  by_cases h : -d2 ≤ c2
  · left
    rw [abs_of_nonpos h0, min_eq_left h]
    simpa using eps_pos
  · right
    rw [abs_of_nonpos h0, min_eq_right (le_of_not_le h)]
    simpa using eps_pos

/-- Key-nodup of the combined debtor/creditor state survives a walk step. -/
theorem keyInv_step (d c : UserId × ℚ) (ds cs : List (UserId × ℚ))
    (v w : ℚ) (p q : Prop) [Decidable p] [Decidable q]
    (hnd : (keysAL ((d :: ds) ++ (c :: cs))).Nodup) :
    (keysAL ((if p then ds else (d.1, v) :: ds) ++
      (if q then cs else (c.1, w) :: cs))).Nodup := by
  apply List.Nodup.sublist _ hnd
  rw [keysAL_append, keysAL_append]
  exact (keysAL_step_sublist d v ds p).append (keysAL_step_sublist c w cs q)

theorem head_ne_of_keyInv {d c : UserId × ℚ} {ds cs : List (UserId × ℚ)}
    (hnd : (keysAL ((d :: ds) ++ (c :: cs))).Nodup) : d.1 ≠ c.1 := by
  rw [keysAL_append, List.nodup_append] at hnd
  intro he
  have h1 : d.1 ∈ keysAL (d :: ds) := by simp [keysAL]
  have h2 : d.1 ∈ keysAL (c :: cs) := by simp [keysAL, he]
  exact hnd.2.2 h1 h2

theorem dhead_not_mem_of_keyInv {d c : UserId × ℚ} {ds cs : List (UserId × ℚ)}
    (hnd : (keysAL ((d :: ds) ++ (c :: cs))).Nodup) : d.1 ∉ keysAL ds := by
  rw [keysAL_append, List.nodup_append] at hnd
  have h1 : (keysAL (d :: ds)).Nodup := hnd.1
  simp only [keysAL, List.map_cons, List.nodup_cons] at h1
  simpa [keysAL] using h1.1

theorem chead_not_mem_of_keyInv {d c : UserId × ℚ} {ds cs : List (UserId × ℚ)}
    (hnd : (keysAL ((d :: ds) ++ (c :: cs))).Nodup) : c.1 ∉ keysAL cs := by
  rw [keysAL_append, List.nodup_append] at hnd
  have h1 : (keysAL (c :: cs)).Nodup := hnd.2.1
  simp only [keysAL, List.map_cons, List.nodup_cons] at h1
  simpa [keysAL] using h1.1

/-- Core of claim C3 (amended): under the partition invariants every emitted
transfer joins two distinct users and moves at least `ε`. -/
theorem walk_transfers_valid (fuel : ℕ) :
    ∀ ds cs, (∀ p ∈ ds, p.2 ≤ -eps) → (∀ p ∈ cs, eps ≤ p.2) →
      (keysAL (ds ++ cs)).Nodup →
      ∀ t ∈ (simpWalkSt fuel ds cs).1, t.1 ≠ t.2.1 ∧ eps ≤ t.2.2 := by
  induction fuel with
  | zero => intro ds cs _ _ _ t ht; simp [simpWalkSt] at ht
  | succ n ih =>
    intro ds cs hds hcs hnd t ht
    match ds, cs with
    | [], cs => simp [simpWalkSt] at ht
    | d :: ds, [] => simp [simpWalkSt] at ht
    | d :: ds, c :: cs =>
      have hd : d.2 ≤ -eps := hds d (List.mem_cons_self _ _)
      have hc : eps ≤ c.2 := hcs c (List.mem_cons_self _ _)
      simp only [simpWalkSt, List.mem_cons] at ht
      rcases ht with rfl | hmem
      · constructor
        · show d.1 ≠ c.1
          exact head_ne_of_keyInv hnd
        · show eps ≤ min |d.2| c.2
          exact step_amount_ge hd hc
      · exact ih _ _
          (debtor_inv_step hd fun p hp => hds p (List.mem_cons_of_mem _ hp))
          (creditor_inv_step hc fun p hp => hcs p (List.mem_cons_of_mem _ hp))
          (keyInv_step _ _ _ _ _ _ _ _ hnd) t hmem

/-- Core of claim C4: the walk emits at most one transfer per ordered
(debtor, creditor) pair. -/
theorem walk_pairwise (fuel : ℕ) :
    ∀ ds cs, (∀ p ∈ ds, p.2 ≤ -eps) → (∀ p ∈ cs, eps ≤ p.2) →
      (keysAL (ds ++ cs)).Nodup →
      List.Pairwise PairNe (simpWalkSt fuel ds cs).1 := by
  induction fuel with
  | zero => intro ds cs _ _ _; simp [simpWalkSt]
  | succ n ih =>
    intro ds cs hds hcs hnd
    match ds, cs with
    | [], cs => simp [simpWalkSt]
    | d :: ds, [] => simp [simpWalkSt]
    | d :: ds, c :: cs =>
      have hd : d.2 ≤ -eps := hds d (List.mem_cons_self _ _)
      have hc : eps ≤ c.2 := hcs c (List.mem_cons_self _ _)
      simp only [simpWalkSt]
      refine List.Pairwise.cons ?_ (ih _ _
        (debtor_inv_step hd fun p hp => hds p (List.mem_cons_of_mem _ hp))
        (creditor_inv_step hc fun p hp => hcs p (List.mem_cons_of_mem _ hp))
        (keyInv_step _ _ _ _ _ _ _ _ hnd))
      intro t hmem
      rcases walk_endpoints n _ _ t hmem with ⟨he1, he2⟩
      simp only [PairNe, ne_eq, Prod.mk.injEq, not_and]
      rcases step_advances hd hc with hda | hca
      · rw [if_pos hda] at he1
        intro h1
        exact absurd (h1 ▸ he1) (dhead_not_mem_of_keyInv hnd)
      · by_cases hda : |d.2 + min |d.2| c.2| < eps
        · rw [if_pos hda] at he1
          intro h1
          exact absurd (h1 ▸ he1) (dhead_not_mem_of_keyInv hnd)
        · rw [if_pos hca] at he2
          intro _ h2
          exact absurd (h2 ▸ he2) (chead_not_mem_of_keyInv hnd)

/-- Core of claim C9, length half: the walk emits at most one transfer per
retired list entry. -/
theorem walk_length_le (fuel : ℕ) :
    ∀ ds cs, (∀ p ∈ ds, p.2 ≤ -eps) → (∀ p ∈ cs, eps ≤ p.2) →
      (simpWalkSt fuel ds cs).1.length ≤ ds.length + cs.length := by
  induction fuel with
  | zero => intro ds cs _ _; simp [simpWalkSt]
  | succ n ih =>
    intro ds cs hds hcs
    match ds, cs with
    | [], cs => simp [simpWalkSt]
    | d :: ds, [] => simp [simpWalkSt]
    | d :: ds, c :: cs =>
      have hd : d.2 ≤ -eps := hds d (List.mem_cons_self _ _)
      have hc : eps ≤ c.2 := hcs c (List.mem_cons_self _ _)
      simp only [simpWalkSt, List.length_cons]
      have hrec := ih _ _
        (@debtor_inv_step d ds c.2 hd fun p hp => hds p (List.mem_cons_of_mem _ hp))
        (@creditor_inv_step c cs d.2 hc fun p hp => hcs p (List.mem_cons_of_mem _ hp))
      by_cases hda : |d.2 + min |d.2| c.2| < eps <;>
        by_cases hca : |c.2 - min |d.2| c.2| < eps
      · rw [if_pos hda, if_pos hca] at hrec ⊢
        omega
      · rw [if_pos hda, if_neg hca] at hrec ⊢
        simp only [List.length_cons] at hrec ⊢
        omega
      · rw [if_neg hda, if_pos hca] at hrec ⊢
        simp only [List.length_cons] at hrec ⊢
        omega
      · exact absurd (step_advances hd hc) (by simp [hda, hca])

/-- Core of claim C9, termination half: one more unit of fuel changes
nothing once the fuel covers the combined list length. -/
theorem walk_fuel_stable (fuel : ℕ) :
    ∀ ds cs, (∀ p ∈ ds, p.2 ≤ -eps) → (∀ p ∈ cs, eps ≤ p.2) →
      ds.length + cs.length ≤ fuel →
      simpWalkSt (fuel + 1) ds cs = simpWalkSt fuel ds cs := by
  induction fuel with
  | zero =>
    intro ds cs _ _ hlen
    have h1 : ds = [] := List.length_eq_zero.mp (by omega)
    have h2 : cs = [] := List.length_eq_zero.mp (by omega)
    subst h1; subst h2
    rfl
  | succ n ih =>
    intro ds cs hds hcs hlen
    match ds, cs with
    | [], cs => rfl
    | d :: ds, [] => rfl
    | d :: ds, c :: cs =>
      have hd : d.2 ≤ -eps := hds d (List.mem_cons_self _ _)
      have hc : eps ≤ c.2 := hcs c (List.mem_cons_self _ _)
      simp only [simpWalkSt]
      have hlen2 : (if |d.2 + min |d.2| c.2| < eps then ds
            else (d.1, d.2 + min |d.2| c.2) :: ds).length +
          (if |c.2 - min |d.2| c.2| < eps then cs
            else (c.1, c.2 - min |d.2| c.2) :: cs).length ≤ n := by
        simp only [List.length_cons] at hlen
        rcases step_advances hd hc with hda | hca
        · rw [if_pos hda]
          by_cases hca : |c.2 - min |d.2| c.2| < eps
          · rw [if_pos hca]; omega
          · rw [if_neg hca]; simp only [List.length_cons]; omega
        · rw [if_pos hca]
          by_cases hda : |d.2 + min |d.2| c.2| < eps
          · rw [if_pos hda]; omega
          · rw [if_neg hda]; simp only [List.length_cons]; omega
      rw [ih _ _
        (debtor_inv_step hd fun p hp => hds p (List.mem_cons_of_mem _ hp))
        (creditor_inv_step hc fun p hp => hcs p (List.mem_cons_of_mem _ hp))
        hlen2]

/-- Any surplus fuel beyond the combined list length is irrelevant. -/
theorem walk_fuel_add (k : ℕ) :
    ∀ fuel ds cs, (∀ p ∈ ds, p.2 ≤ -eps) → (∀ p ∈ cs, eps ≤ p.2) →
      ds.length + cs.length ≤ fuel →
      simpWalkSt (fuel + k) ds cs = simpWalkSt fuel ds cs := by
  induction k with
  | zero => intro fuel ds cs _ _ _; rfl
  | succ m ih =>
    intro fuel ds cs hds hcs hlen
    have he : fuel + (m + 1) = (fuel + m) + 1 := by omega
    rw [he, walk_fuel_stable (fuel + m) ds cs hds hcs (by omega),
      ih fuel ds cs hds hcs hlen]

theorem getD_eq_get {α : Type} (l : List α) (n : ℕ) (a : α)
    (h : n < l.length) : l.getD n a = l[n] := by
  simp [List.getD_eq_getElem?_getD, List.getElem?_eq_getElem h]

theorem drop_set_cons {α : Type} :
    ∀ (l : List α) (i : ℕ) (x : α), i < l.length →
      (l.set i x).drop i = x :: l.drop (i + 1) := by
  intro l
  induction l with
  | nil => intro i x h; simp at h
  | cons a l ih =>
    intro i x h
    cases i with
    | zero => simp
    | succ n =>
      simp only [List.set, List.drop]
      exact ih n x (by simpa using h)

/-- The index-based loop of the source equals the cursor-free walk on the
corresponding list suffixes (entries before a cursor are never read again;
an in-place write at the cursor replaces the suffix head). -/
theorem simpLoopIdx_eq_walk (fuel : ℕ) :
    ∀ i j ds cs,
      simpLoopIdx fuel i j ds cs = (simpWalkSt fuel (ds.drop i) (cs.drop j)).1 := by
  induction fuel with
  | zero => intro i j ds cs; simp [simpLoopIdx, simpWalkSt]
  | succ n ih =>
    intro i j ds cs
    by_cases hg : i < ds.length ∧ j < cs.length
    · obtain ⟨hi, hj⟩ := hg
      rw [List.drop_eq_getElem_cons hi, List.drop_eq_getElem_cons hj]
      simp only [simpLoopIdx, simpWalkSt]
      rw [if_pos (show i < ds.length ∧ j < cs.length from ⟨hi, hj⟩)]
      rw [getD_eq_get _ _ _ hi, getD_eq_get _ _ _ hj]
      congr 1
      by_cases hda : |ds[i].2 + min |ds[i].2| cs[j].2| < eps <;>
        by_cases hca : |cs[j].2 - min |ds[i].2| cs[j].2| < eps
      · rw [if_pos hda, if_pos hda, if_pos hda, if_pos hca, if_pos hca,
          if_pos hca, ih]
      · rw [if_pos hda, if_pos hda, if_pos hda, if_neg hca, if_neg hca,
          if_neg hca, ih, drop_set_cons cs j _ hj]
      · rw [if_neg hda, if_neg hda, if_neg hda, if_pos hca, if_pos hca,
          if_pos hca, ih, drop_set_cons ds i _ hi]
      · rw [if_neg hda, if_neg hda, if_neg hda, if_neg hca, if_neg hca,
          if_neg hca, ih, drop_set_cons ds i _ hi, drop_set_cons cs j _ hj]
    · simp only [simpLoopIdx]
      rw [if_neg hg]
      rcases not_and_or.mp hg with h | h
      · rw [List.drop_eq_nil_of_le (le_of_not_lt h)]
        simp [simpWalkSt]
      · rw [List.drop_eq_nil_of_le (le_of_not_lt h)]
        cases hX : ds.drop i with
        | nil => simp [simpWalkSt]
        | cons a l => simp [simpWalkSt]

theorem lookupAL_cons (p : UserId × ℚ) (m : List (UserId × ℚ)) (k : UserId) :
    lookupAL (p :: m) k = if p.1 = k then p.2 else lookupAL m k := by
  obtain ⟨a, b⟩ := p; rfl

theorem mem_keysAL_cons {p : UserId × ℚ} {m : List (UserId × ℚ)} {u : UserId} :
    u ∈ keysAL (p :: m) ↔ u = p.1 ∨ u ∈ keysAL m := by
  simp [keysAL]

theorem not_mem_right_of_keyInv {l1 l2 : List (UserId × ℚ)} {u : UserId}
    (hnd : (keysAL (l1 ++ l2)).Nodup) (h : u ∈ keysAL l1) : u ∉ keysAL l2 := by
  rw [keysAL_append, List.nodup_append] at hnd
  exact fun h2 => hnd.2.2 h h2

theorem not_mem_left_of_keyInv {l1 l2 : List (UserId × ℚ)} {u : UserId}
    (hnd : (keysAL (l1 ++ l2)).Nodup) (h : u ∈ keysAL l2) : u ∉ keysAL l1 :=
  fun h1 => not_mem_right_of_keyInv hnd h1 h

theorem mem_keysAL_step {u : UserId} {d : UserId × ℚ} {v : ℚ}
    {ds : List (UserId × ℚ)} {p : Prop} [Decidable p]
    (h : u ∈ keysAL ds) : u ∈ keysAL (if p then ds else (d.1, v) :: ds) := by
  split
  · exact h
  · exact List.mem_cons_of_mem _ h

theorem lookupAL_step {u : UserId} {d : UserId × ℚ} {v : ℚ}
    {ds : List (UserId × ℚ)} {p : Prop} [Decidable p] (hne : u ≠ d.1) :
    lookupAL (if p then ds else (d.1, v) :: ds) u = lookupAL ds u := by
  split
  · rfl
  · rw [lookupAL_cons, if_neg fun h => hne h.symm]

theorem deltaOf_cons (t : Row) (ts : List Row) (u : UserId) :
    deltaOf (t :: ts) u =
      ((if t.1 = u then t.2.2 else 0) + (if t.2.1 = u then -t.2.2 else 0)) +
        deltaOf ts u := by
  simp [deltaOf]

theorem simpWalkSt_cons (n : ℕ) (d c : UserId × ℚ)
    (ds cs : List (UserId × ℚ)) :
    simpWalkSt (n + 1) (d :: ds) (c :: cs) =
      ((d.1, c.1, min |d.2| c.2) ::
        (simpWalkSt n
          (if |d.2 + min |d.2| c.2| < eps then ds
            else (d.1, d.2 + min |d.2| c.2) :: ds)
          (if |c.2 - min |d.2| c.2| < eps then cs
            else (c.1, c.2 - min |d.2| c.2) :: cs)).1,
       (simpWalkSt n
          (if |d.2 + min |d.2| c.2| < eps then ds
            else (d.1, d.2 + min |d.2| c.2) :: ds)
          (if |c.2 - min |d.2| c.2| < eps then cs
            else (c.1, c.2 - min |d.2| c.2) :: cs)).2) := by
  rfl

/-- Core of claim C1 (amended): every user the walk has fully processed —
i.e. who is not left in the final debtor/creditor state — ends, after the
emitted transfers are applied, within `ε` of zero. -/
theorem walk_residual (fuel : ℕ) :
    ∀ ds cs, (keysAL (ds ++ cs)).Nodup →
      ∀ u, u ∈ keysAL (ds ++ cs) →
        u ∉ keysAL ((simpWalkSt fuel ds cs).2.1 ++ (simpWalkSt fuel ds cs).2.2) →
        |lookupAL (ds ++ cs) u + deltaOf (simpWalkSt fuel ds cs).1 u| ≤ eps := by
  induction fuel with
  | zero =>
    intro ds cs _ u hu hfin
    simp only [simpWalkSt] at hfin
    exact absurd hu hfin
  | succ n ih =>
    intro ds cs hnd u hu hfin
    match ds, cs with
    | [], cs =>
      simp only [simpWalkSt] at hfin
      exact absurd hu hfin
    | d :: ds, [] =>
      simp only [simpWalkSt] at hfin
      exact absurd hu hfin
    | d :: ds, c :: cs =>
      have hne := head_ne_of_keyInv hnd
      rw [simpWalkSt_cons] at hfin ⊢
      rw [deltaOf_cons]
      by_cases hud : u = d.1
      · subst hud
        rw [if_pos rfl, if_neg fun h => hne h.symm]
        have hlk : lookupAL ((d :: ds) ++ (c :: cs)) d.1 = d.2 := by
          rw [List.cons_append, lookupAL_cons, if_pos rfl]
        rw [hlk]
        by_cases hda : |d.2 + min |d.2| c.2| < eps
        · rw [if_pos hda] at hfin ⊢
          have hdz : deltaOf (simpWalkSt n ds
              (if |c.2 - min |d.2| c.2| < eps then cs
                else (c.1, c.2 - min |d.2| c.2) :: cs)).1 d.1 = 0 := by
            apply deltaOf_eq_zero
            intro t ht
            rcases walk_endpoints n _ _ t ht with ⟨h1, h2⟩
            constructor
            · intro he; rw [he] at h1
              exact (dhead_not_mem_of_keyInv hnd) h1
            · intro he; rw [he] at h2
              have h2' : d.1 ∈ keysAL (c :: cs) :=
                (keysAL_step_sublist c _ cs _).subset h2
              have hd1 : d.1 ∈ keysAL (d :: ds) := by simp [keysAL]
              exact (not_mem_right_of_keyInv hnd hd1) h2'
          rw [hdz]
          have he : d.2 + (min |d.2| c.2 + 0 + 0) = d.2 + min |d.2| c.2 := by
            ring
          rw [he]
          exact le_of_lt hda
        · rw [if_neg hda] at hfin ⊢
          have h0 := keyInv_step d c ds cs (d.2 + min |d.2| c.2)
            (c.2 - min |d.2| c.2) (|d.2 + min |d.2| c.2| < eps)
            (|c.2 - min |d.2| c.2| < eps) hnd
          rw [if_neg hda] at h0
          have hmem : d.1 ∈ keysAL (((d.1, d.2 + min |d.2| c.2) :: ds) ++
              (if |c.2 - min |d.2| c.2| < eps then cs
                else (c.1, c.2 - min |d.2| c.2) :: cs)) := by
            rw [List.cons_append]
            exact mem_keysAL_cons.mpr (Or.inl rfl)
          have harg := ih _ _ h0 d.1 hmem hfin
          have hlk2 : lookupAL (((d.1, d.2 + min |d.2| c.2) :: ds) ++
              (if |c.2 - min |d.2| c.2| < eps then cs
                else (c.1, c.2 - min |d.2| c.2) :: cs)) d.1 =
              d.2 + min |d.2| c.2 := by
            rw [List.cons_append, lookupAL_cons, if_pos rfl]
          rw [hlk2] at harg
          have he : d.2 + (min |d.2| c.2 + 0 +
              deltaOf (simpWalkSt n ((d.1, d.2 + min |d.2| c.2) :: ds)
                (if |c.2 - min |d.2| c.2| < eps then cs
                  else (c.1, c.2 - min |d.2| c.2) :: cs)).1 d.1) =
              d.2 + min |d.2| c.2 +
                deltaOf (simpWalkSt n ((d.1, d.2 + min |d.2| c.2) :: ds)
                  (if |c.2 - min |d.2| c.2| < eps then cs
                    else (c.1, c.2 - min |d.2| c.2) :: cs)).1 d.1 := by
            ring
          rw [he]
          exact harg
      · by_cases huc : u = c.1
        · subst huc
          rw [if_neg hne, if_pos rfl]
          have hmemc : c.1 ∈ keysAL (c :: cs) := by simp [keysAL]
          have hnotleft : c.1 ∉ keysAL (d :: ds) :=
            not_mem_left_of_keyInv hnd hmemc
          have hlk : lookupAL ((d :: ds) ++ (c :: cs)) c.1 = c.2 := by
            rw [lookupAL_append, if_neg hnotleft, lookupAL_cons, if_pos rfl]
          rw [hlk]
          by_cases hca : |c.2 - min |d.2| c.2| < eps
          · rw [if_pos hca] at hfin ⊢
            have hdz : deltaOf (simpWalkSt n
                (if |d.2 + min |d.2| c.2| < eps then ds
                  else (d.1, d.2 + min |d.2| c.2) :: ds) cs).1 c.1 = 0 := by
              apply deltaOf_eq_zero
              intro t ht
              rcases walk_endpoints n _ _ t ht with ⟨h1, h2⟩
              constructor
              · intro he; rw [he] at h1
                exact hnotleft ((keysAL_step_sublist d _ ds _).subset h1)
              · intro he; rw [he] at h2
                exact (chead_not_mem_of_keyInv hnd) h2
            rw [hdz]
            have he2 : c.2 + (0 + -(min |d.2| c.2) + 0) =
                c.2 - min |d.2| c.2 := by ring
            rw [he2]
            exact le_of_lt hca
          · rw [if_neg hca] at hfin ⊢
            have h0 := keyInv_step d c ds cs (d.2 + min |d.2| c.2)
              (c.2 - min |d.2| c.2) (|d.2 + min |d.2| c.2| < eps)
              (|c.2 - min |d.2| c.2| < eps) hnd
            rw [if_neg hca] at h0
            have hmem : c.1 ∈ keysAL
                ((if |d.2 + min |d.2| c.2| < eps then ds
                  else (d.1, d.2 + min |d.2| c.2) :: ds) ++
                 ((c.1, c.2 - min |d.2| c.2) :: cs)) := by
              rw [keysAL_append]
              exact List.mem_append_right _ (mem_keysAL_cons.mpr (Or.inl rfl))
            have harg := ih _ _ h0 c.1 hmem hfin
            have hnotX : c.1 ∉ keysAL
                (if |d.2 + min |d.2| c.2| < eps then ds
                  else (d.1, d.2 + min |d.2| c.2) :: ds) := fun hx =>
              hnotleft ((keysAL_step_sublist d _ ds _).subset hx)
            have hlk2 : lookupAL
                ((if |d.2 + min |d.2| c.2| < eps then ds
                  else (d.1, d.2 + min |d.2| c.2) :: ds) ++
                 ((c.1, c.2 - min |d.2| c.2) :: cs)) c.1 =
                c.2 - min |d.2| c.2 := by
              rw [lookupAL_append, if_neg hnotX, lookupAL_cons, if_pos rfl]
            rw [hlk2] at harg
            have he2 : c.2 + (0 + -(min |d.2| c.2) +
                deltaOf (simpWalkSt n
                  (if |d.2 + min |d.2| c.2| < eps then ds
                    else (d.1, d.2 + min |d.2| c.2) :: ds)
                  ((c.1, c.2 - min |d.2| c.2) :: cs)).1 c.1) =
                c.2 - min |d.2| c.2 +
                  deltaOf (simpWalkSt n
                    (if |d.2 + min |d.2| c.2| < eps then ds
                      else (d.1, d.2 + min |d.2| c.2) :: ds)
                    ((c.1, c.2 - min |d.2| c.2) :: cs)).1 c.1 := by
              ring
            rw [he2]
            exact harg
        · rw [if_neg fun h => hud h.symm, if_neg fun h => huc h.symm]
          have hu' : u ∈ keysAL ds ∨ u ∈ keysAL cs := by
            rw [keysAL_append] at hu
            rcases List.mem_append.mp hu with h | h
            · rcases mem_keysAL_cons.mp h with he | h2
              · exact absurd he hud
              · exact Or.inl h2
            · rcases mem_keysAL_cons.mp h with he | h2
              · exact absurd he huc
              · exact Or.inr h2
          have h0 := keyInv_step d c ds cs (d.2 + min |d.2| c.2)
            (c.2 - min |d.2| c.2) (|d.2 + min |d.2| c.2| < eps)
            (|c.2 - min |d.2| c.2| < eps) hnd
          have hmemXY : u ∈ keysAL
              ((if |d.2 + min |d.2| c.2| < eps then ds
                else (d.1, d.2 + min |d.2| c.2) :: ds) ++
               (if |c.2 - min |d.2| c.2| < eps then cs
                else (c.1, c.2 - min |d.2| c.2) :: cs)) := by
            rw [keysAL_append]
            rcases hu' with h | h
            · exact List.mem_append_left _ (mem_keysAL_step h)
            · exact List.mem_append_right _ (mem_keysAL_step h)
          have harg := ih _ _ h0 u hmemXY hfin
          have hlkeq : lookupAL
              ((if |d.2 + min |d.2| c.2| < eps then ds
                else (d.1, d.2 + min |d.2| c.2) :: ds) ++
               (if |c.2 - min |d.2| c.2| < eps then cs
                else (c.1, c.2 - min |d.2| c.2) :: cs)) u =
              lookupAL ((d :: ds) ++ (c :: cs)) u := by
            rcases hu' with h | h
            · have hX : u ∈ keysAL (if |d.2 + min |d.2| c.2| < eps then ds
                  else (d.1, d.2 + min |d.2| c.2) :: ds) := mem_keysAL_step h
              rw [lookupAL_append, if_pos hX, lookupAL_step hud]
              have hmeml : u ∈ keysAL (d :: ds) :=
                mem_keysAL_cons.mpr (Or.inr h)
              rw [lookupAL_append, if_pos hmeml, lookupAL_cons,
                if_neg fun hh => hud hh.symm]
            · have hmemr : u ∈ keysAL (c :: cs) :=
                mem_keysAL_cons.mpr (Or.inr h)
              have hnotl : u ∉ keysAL (d :: ds) :=
                not_mem_left_of_keyInv hnd hmemr
              have hnotX : u ∉ keysAL (if |d.2 + min |d.2| c.2| < eps then ds
                  else (d.1, d.2 + min |d.2| c.2) :: ds) := fun hx =>
                hnotl ((keysAL_step_sublist d _ ds _).subset hx)
              rw [lookupAL_append, if_neg hnotX, lookupAL_step huc,
                lookupAL_append, if_neg hnotl, lookupAL_cons,
                if_neg fun hh => huc hh.symm]
          rw [hlkeq] at harg
          have he3 : lookupAL ((d :: ds) ++ (c :: cs)) u + (0 + 0 +
              deltaOf (simpWalkSt n
                (if |d.2 + min |d.2| c.2| < eps then ds
                  else (d.1, d.2 + min |d.2| c.2) :: ds)
                (if |c.2 - min |d.2| c.2| < eps then cs
                  else (c.1, c.2 - min |d.2| c.2) :: cs)).1 u) =
              lookupAL ((d :: ds) ++ (c :: cs)) u +
                deltaOf (simpWalkSt n
                  (if |d.2 + min |d.2| c.2| < eps then ds
                    else (d.1, d.2 + min |d.2| c.2) :: ds)
                  (if |c.2 - min |d.2| c.2| < eps then cs
                    else (c.1, c.2 - min |d.2| c.2) :: cs)).1 u := by
            ring
          rw [he3]
          exact harg

/-- Characterisation of the keys recorded by the projector fold: a key is
recorded exactly for a transfer out of `u` (recording the recipient) or
into `u` (recording the sender, only when the `elif` is reached). -/
theorem mem_keys_project_aux (u x : UserId) :
    ∀ (ts : List Row) (res : List (UserId × ℚ)),
      (x ∈ keysAL (ts.foldl (projectStep u) res) ↔
        x ∈ keysAL res ∨ ∃ t ∈ ts,
          (t.1 = u ∧ t.2.1 = x) ∨ (¬t.1 = u ∧ t.2.1 = u ∧ t.1 = x)) := by
  intro ts
  induction ts with
  | nil => intro res; simp
  | cons t ts ih =>
    intro res
    rw [List.foldl_cons, ih]
    have hstep : x ∈ keysAL (projectStep u res t) ↔
        x ∈ keysAL res ∨
          ((t.1 = u ∧ t.2.1 = x) ∨ (¬t.1 = u ∧ t.2.1 = u ∧ t.1 = x)) := by
      unfold projectStep
      by_cases ht1 : t.1 = u
      · rw [if_pos ht1, mem_keysAL_updAL]
        constructor
        · rintro (h | h)
          · exact Or.inl h
          · exact Or.inr (Or.inl ⟨ht1, h.symm⟩)
        · rintro (h | (⟨_, h⟩ | ⟨hn, _, _⟩))
          · exact Or.inl h
          · exact Or.inr h.symm
          · exact absurd ht1 hn
      · rw [if_neg ht1]
        by_cases ht2 : t.2.1 = u
        · rw [if_pos ht2, mem_keysAL_updAL]
          constructor
          · rintro (h | h)
            · exact Or.inl h
            · exact Or.inr (Or.inr ⟨ht1, ht2, h.symm⟩)
          · rintro (h | (⟨h1, _⟩ | ⟨_, _, h3⟩))
            · exact Or.inl h
            · exact absurd h1 ht1
            · exact Or.inr h3.symm
        · rw [if_neg ht2]
          constructor
          · exact Or.inl
          · rintro (h | (⟨h1, _⟩ | ⟨_, h2, _⟩))
            · exact h
            · exact absurd h1 ht1
            · exact absurd h2 ht2
    rw [hstep]
    have hcons : (∃ t' ∈ t :: ts, (t'.1 = u ∧ t'.2.1 = x) ∨
        (¬t'.1 = u ∧ t'.2.1 = u ∧ t'.1 = x)) ↔
        ((t.1 = u ∧ t.2.1 = x) ∨ (¬t.1 = u ∧ t.2.1 = u ∧ t.1 = x)) ∨
          ∃ t' ∈ ts, (t'.1 = u ∧ t'.2.1 = x) ∨
            (¬t'.1 = u ∧ t'.2.1 = u ∧ t'.1 = x) := by
      simp
    rw [hcons]
    exact or_assoc

/-- The value the projector fold records for counterparty `x`, as a sum of
per-transfer contributions. -/
theorem lookup_project_aux (u x : UserId) :
    ∀ (ts : List Row) (res : List (UserId × ℚ)),
      lookupAL (ts.foldl (projectStep u) res) x =
        lookupAL res x + (ts.map fun t =>
          if t.1 = u then (if t.2.1 = x then -t.2.2 else 0)
          else if t.2.1 = u then (if t.1 = x then t.2.2 else 0) else 0).sum := by
  intro ts
  induction ts with
  | nil => intro res; simp
  | cons t ts ih =>
    intro res
    rw [List.foldl_cons, ih]
    have hstep : lookupAL (projectStep u res t) x =
        lookupAL res x +
          (if t.1 = u then (if t.2.1 = x then -t.2.2 else 0)
            else if t.2.1 = u then (if t.1 = x then t.2.2 else 0) else 0) := by
      unfold projectStep
      by_cases ht1 : t.1 = u
      · rw [if_pos ht1, if_pos ht1, lookupAL_updAL]
      · rw [if_neg ht1, if_neg ht1]
        by_cases ht2 : t.2.1 = u
        · rw [if_pos ht2, if_pos ht2, lookupAL_updAL]
        · rw [if_neg ht2, if_neg ht2, add_zero]
    rw [hstep]
    simp only [List.map_cons, List.sum_cons]
    ring

theorem nodup_keys_foldl_projectStep (u : UserId) :
    ∀ (ts : List Row) (res : List (UserId × ℚ)),
      (keysAL res).Nodup → (keysAL (ts.foldl (projectStep u) res)).Nodup := by
  intro ts
  induction ts with
  | nil => intro res h; exact h
  | cons t ts ih =>
    intro res h
    rw [List.foldl_cons]
    apply ih
    unfold projectStep
    split
    · exact nodup_keysAL_updAL _ _ _ h
    · split
      · exact nodup_keysAL_updAL _ _ _ h
      · exact h

/-- The mapping returned by the projector never repeats a counterparty key,
whatever transfer list it is given (`defaultdict` accumulation). -/
theorem nodup_keys_projectForUser (ts : List Row) (u : UserId) :
    (keysAL (projectForUser ts u)).Nodup :=
  nodup_keys_foldl_projectStep u ts [] (by simp [keysAL])

/-- A sum of per-transfer contributions collapses to the single transfer
with a given (from, to) pair when all transfers with a different pair
contribute `0` and the pairs are pairwise distinct. -/
theorem sum_contrib_single (f : Row → ℚ) :
    ∀ (ts : List Row) (t0 : Row), t0 ∈ ts →
      List.Pairwise PairNe ts →
      (∀ t ∈ ts, (t.1, t.2.1) ≠ (t0.1, t0.2.1) → f t = 0) →
      (ts.map f).sum = f t0 := by
  intro ts
  induction ts with
  | nil => intro t0 h; intro _ _; simp at h
  | cons t ts ih =>
    intro t0 hmem hpw hz
    rcases List.mem_cons.mp hmem with rfl | hmem'
    · simp only [List.map_cons, List.sum_cons]
      have hrest : (ts.map f).sum = 0 := by
        apply List.sum_eq_zero
        intro y hy
        rcases List.mem_map.mp hy with ⟨s, hs, rfl⟩
        apply hz s (List.mem_cons_of_mem _ hs)
        have hpne : PairNe t0 s := (List.pairwise_cons.mp hpw).1 s hs
        exact Ne.symm hpne
      rw [hrest, add_zero]
    · simp only [List.map_cons, List.sum_cons]
      have hft : f t = 0 := by
        by_cases hp : (t.1, t.2.1) = (t0.1, t0.2.1)
        · have hpne : PairNe t t0 := (List.pairwise_cons.mp hpw).1 t0 hmem'
          exact absurd hp hpne
        · exact hz t (List.mem_cons_self _ _) hp
      rw [hft, ih t0 hmem' (List.pairwise_cons.mp hpw).2
        (fun s hs hsp => hz s (List.mem_cons_of_mem _ hs) hsp), zero_add]

/-- `simplifyDebts` is the greedy walk over the sorted partition (the fuel
passed by the source-level call suffices and indices reduce to suffixes). -/
theorem simplifyDebts_eq_walk (net : List (UserId × ℚ)) :
    simplifyDebts net =
      (simpWalkSt ((debtorsOf net).length + (creditorsOf net).length)
        (debtorsOf net) (creditorsOf net)).1 := by
  simp only [simplifyDebts]
  rw [simpLoopIdx_eq_walk, List.drop_zero, List.drop_zero]

theorem debtors_val_inv (net : List (UserId × ℚ)) :
    ∀ p ∈ debtorsOf net, p.2 ≤ -eps :=
  fun p hp => le_of_lt (mem_debtorsOf.mp hp).2

theorem creditors_val_inv (net : List (UserId × ℚ)) :
    ∀ p ∈ creditorsOf net, eps ≤ p.2 :=
  fun p hp => le_of_lt (mem_creditorsOf.mp hp).2

theorem simplifyDebts_endpoints {net : List (UserId × ℚ)} {t : Row}
    (ht : t ∈ simplifyDebts net) :
    t.1 ∈ keysAL (debtorsOf net) ∧ t.2.1 ∈ keysAL (creditorsOf net) := by
  rw [simplifyDebts_eq_walk] at ht
  exact walk_endpoints _ _ _ t ht

theorem simplifyDebts_pairwise {net : List (UserId × ℚ)}
    (hnd : (keysAL net).Nodup) :
    List.Pairwise PairNe (simplifyDebts net) := by
  rw [simplifyDebts_eq_walk]
  exact walk_pairwise _ _ _ (debtors_val_inv net) (creditors_val_inv net)
    (keyInv_of_nodup hnd)

theorem simplifyDebts_valid {net : List (UserId × ℚ)}
    (hnd : (keysAL net).Nodup) :
    ∀ t ∈ simplifyDebts net, t.1 ≠ t.2.1 ∧ eps ≤ t.2.2 := by
  rw [simplifyDebts_eq_walk]
  exact walk_transfers_valid _ _ _ (debtors_val_inv net)
    (creditors_val_inv net) (keyInv_of_nodup hnd)

theorem debtor_creditor_disjoint {net : List (UserId × ℚ)}
    (hnd : (keysAL net).Nodup) {u : UserId}
    (h1 : u ∈ keysAL (debtorsOf net)) (h2 : u ∈ keysAL (creditorsOf net)) :
    False :=
  not_mem_right_of_keyInv (keyInv_of_nodup hnd) h1 h2

/-- Claim C2: for every set of expense splits and settlements, the sum over
all users of the net balances produced by the aggregator is within
`ε = 0.01` of `0`.  (In the exact-rational model the sum is exactly `0`.) -/
theorem C2_conservation (splits settlements : List Row) :
    |sumAL (computeNetBalances splits settlements)| ≤ eps := by
  rw [sumAL_computeNetBalances]
  simpa using le_of_lt eps_pos

/-- Claim C3, counterexample: on the net-balance mapping
`{0 ↦ −1.01, 1 ↦ 1, 2 ↦ 0.99}` the simplifier emits a transfer of exactly
`ε = 0.01` (namely `(0, 2, 0.01)`), so `amount > ε` fails as stated. -/
theorem C3_counterexample :
    (keysAL [((0 : UserId), (-101 / 100 : ℚ)), (1, 1), (2, 99 / 100)]).Nodup ∧
    ¬ (∀ t ∈ simplifyDebts
        [((0 : UserId), (-101 / 100 : ℚ)), (1, 1), (2, 99 / 100)],
        eps < t.2.2) := by
  have heval : simplifyDebts
      [((0 : UserId), (-101 / 100 : ℚ)), (1, 1), (2, 99 / 100)] =
      [(0, 1, 1), (0, 2, 1 / 100)] := by
    norm_num [simplifyDebts, simpLoopIdx, debtorsOf, creditorsOf,
      List.insertionSort, List.orderedInsert, eps, abs]
  constructor
  · decide
  · rw [heval]
    intro hall
    have := hall (0, 2, 1 / 100) (by simp)
    norm_num [eps] at this

/-- Claim C3, amended: for every net-balance mapping (no repeated user key),
every transfer emitted by the debt simplifier satisfies `from ≠ to` and
`amount ≥ ε` — the amount can equal `ε` exactly, so the strict `amount > ε`
of the claim is weakened to `≥`. -/
theorem C3_transfer_validity {net : List (UserId × ℚ)}
    (hnd : (keysAL net).Nodup) :
    ∀ t ∈ simplifyDebts net, t.1 ≠ t.2.1 ∧ eps ≤ t.2.2 :=
  simplifyDebts_valid hnd

/-- Witness for C3: a concrete two-user mapping satisfying the hypothesis. -/
theorem C3_transfer_validity_witness :
    (keysAL [((0 : UserId), (-50 : ℚ)), (1, 50)]).Nodup ∧
    ∀ t ∈ simplifyDebts [((0 : UserId), (-50 : ℚ)), (1, 50)],
      t.1 ≠ t.2.1 ∧ eps ≤ t.2.2 :=
  ⟨by decide, C3_transfer_validity (by decide)⟩

/-- Claim C4: for every net-balance mapping (no repeated user key), the
emitted transfer list contains at most one transfer per ordered
(debtor, creditor) pair, and consequently (and by `defaultdict`
accumulation) the projected result lists each counterparty at most once. -/
theorem C4_one_transfer_per_pair {net : List (UserId × ℚ)}
    (hnd : (keysAL net).Nodup) :
    List.Pairwise PairNe (simplifyDebts net) ∧
    ∀ u, (keysAL (projectForUser (simplifyDebts net) u)).Nodup :=
  ⟨simplifyDebts_pairwise hnd, fun u => nodup_keys_projectForUser _ u⟩

/-- Witness for C4 at a concrete mapping. -/
theorem C4_one_transfer_per_pair_witness :
    (keysAL [((0 : UserId), (-50 : ℚ)), (1, 50)]).Nodup ∧
    (List.Pairwise PairNe (simplifyDebts [((0 : UserId), (-50 : ℚ)), (1, 50)]) ∧
    ∀ u, (keysAL (projectForUser
      (simplifyDebts [((0 : UserId), (-50 : ℚ)), (1, 50)]) u)).Nodup) :=
  ⟨by decide, C4_one_transfer_per_pair (by decide)⟩

/-- Claim C5, counterexample: on the net mapping
`{0 ↦ −1.01, 1 ↦ 1, 2 ↦ 0.99}` the walk that advances a cursor when the
remaining balance satisfies `|value| ≤ ε` (the claim's rule) emits a
different transfer list than the source's loop, whose advancement test is
the strict `abs(residual) < 0.01`: the source keeps the debtor whose
residual is exactly `−0.01` and emits a second transfer. -/
theorem C5_counterexample :
    specWalkLe
      ((debtorsOf [((0 : UserId), (-101 / 100 : ℚ)), (1, 1), (2, 99 / 100)]).length +
        (creditorsOf [((0 : UserId), (-101 / 100 : ℚ)), (1, 1), (2, 99 / 100)]).length)
      (debtorsOf [((0 : UserId), (-101 / 100 : ℚ)), (1, 1), (2, 99 / 100)])
      (creditorsOf [((0 : UserId), (-101 / 100 : ℚ)), (1, 1), (2, 99 / 100)]) ≠
    simpLoopIdx
      ((debtorsOf [((0 : UserId), (-101 / 100 : ℚ)), (1, 1), (2, 99 / 100)]).length +
        (creditorsOf [((0 : UserId), (-101 / 100 : ℚ)), (1, 1), (2, 99 / 100)]).length)
      0 0
      (debtorsOf [((0 : UserId), (-101 / 100 : ℚ)), (1, 1), (2, 99 / 100)])
      (creditorsOf [((0 : UserId), (-101 / 100 : ℚ)), (1, 1), (2, 99 / 100)]) := by
  have hD : debtorsOf [((0 : UserId), (-101 / 100 : ℚ)), (1, 1), (2, 99 / 100)] =
      [(0, -101 / 100)] := by
    norm_num [debtorsOf, List.insertionSort, List.orderedInsert, eps]
  have hC : creditorsOf [((0 : UserId), (-101 / 100 : ℚ)), (1, 1), (2, 99 / 100)] =
      [(1, 1), (2, 99 / 100)] := by
    norm_num [creditorsOf, List.insertionSort, List.orderedInsert, eps]
  rw [hD, hC]
  have h1 : specWalkLe 3 [((0 : UserId), (-101 / 100 : ℚ))]
      [((1 : UserId), (1 : ℚ)), (2, 99 / 100)] = [(0, 1, 1)] := by
    norm_num [specWalkLe, eps, abs]
  have h2 : simpLoopIdx 3 0 0 [((0 : UserId), (-101 / 100 : ℚ))]
      [((1 : UserId), (1 : ℚ)), (2, 99 / 100)] =
      [(0, 1, 1), (0, 2, 1 / 100)] := by
    norm_num [simpLoopIdx, eps, abs]
  simp only [List.length_cons, List.length_nil]
  rw [h1, h2]
  simp

/-- Claim C5, amended: after each emitted transfer each cursor is advanced
exactly when the corresponding remaining balance satisfies the STRICT test
`|residual| < ε` (not `≤ ε`); with that rule the source's index-based loop
coincides, for every fuel and every debtor/creditor state, with the
cursor-free walk `simpWalkSt` implementing exactly that advancement rule. -/
theorem C5_advance_is_strict (fuel : ℕ) (ds cs : List (UserId × ℚ)) :
    simpLoopIdx fuel 0 0 ds cs = (simpWalkSt fuel ds cs).1 := by
  rw [simpLoopIdx_eq_walk, List.drop_zero, List.drop_zero]

/-- Claim C7: an expense split whose payer equals its debtor changes no
user's net balance — the aggregator's output on a ledger containing such a
split equals its output with that split removed. -/
theorem C7_self_split_noop (l1 l2 settlements : List Row) (r : Row)
    (h : r.1 = r.2.1) :
    computeNetBalances (l1 ++ r :: l2) settlements =
      computeNetBalances (l1 ++ l2) settlements := by
  unfold computeNetBalances
  have hsplit : (l1 ++ r :: l2).foldl applySplit [] =
      (l1 ++ l2).foldl applySplit [] := by
    rw [List.foldl_append, List.foldl_append, List.foldl_cons]
    have : applySplit (l1.foldl applySplit []) r = l1.foldl applySplit [] := by
      unfold applySplit
      rw [if_pos h]
    rw [this]
  rw [hsplit]

/-- Witness for C7 at a concrete self-split. -/
theorem C7_self_split_noop_witness :
    ((0 : UserId), (0 : UserId), (5 : ℚ)).1 =
      ((0 : UserId), (0 : UserId), (5 : ℚ)).2.1 ∧
    computeNetBalances ([] ++ ((0 : UserId), (0 : UserId), (5 : ℚ)) ::
        [((0 : UserId), (1 : UserId), (50 : ℚ))]) [] =
      computeNetBalances ([] ++ [((0 : UserId), (1 : UserId), (50 : ℚ))]) [] :=
  ⟨rfl, C7_self_split_noop [] [((0 : UserId), (1 : UserId), (50 : ℚ))] []
    ((0 : UserId), (0 : UserId), (5 : ℚ)) rfl⟩

/-- Claim C8: the balance computation is a total function in this model
(it raises nothing), and on an empty set of splits and settlements it
returns the empty mapping for every observing user. -/
theorem C8_empty_input (u : UserId) : calculate_balances [] [] u = [] := rfl

/-- Claim C9: the greedy loop terminates within `D + C` iterations: the
emitted transfer list has length at most `D + C`, and giving the loop any
fuel beyond the `D + C` supplied by the source changes nothing (the loop has
already reached its exit condition). -/
theorem C9_termination (net : List (UserId × ℚ)) (k : ℕ) :
    (simplifyDebts net).length ≤
      (debtorsOf net).length + (creditorsOf net).length ∧
    simpLoopIdx ((debtorsOf net).length + (creditorsOf net).length + k) 0 0
      (debtorsOf net) (creditorsOf net) = simplifyDebts net := by
  constructor
  · rw [simplifyDebts_eq_walk]
    exact walk_length_le _ _ _ (debtors_val_inv net) (creditors_val_inv net)
  · rw [simpLoopIdx_eq_walk, List.drop_zero, List.drop_zero,
      walk_fuel_add k _ _ _ (debtors_val_inv net) (creditors_val_inv net)
        (le_refl _), simplifyDebts_eq_walk]

/-- Claim C10: for every ledger and observing user `u`, the projected
mapping never contains `u` itself as a key: recorded keys are opposite
endpoints of transfers touching `u`, and no emitted transfer is a
self-loop. -/
theorem C10_observer_not_a_key (splits settlements : List Row) (u : UserId) :
    u ∉ keysAL (calculate_balances splits settlements u) := by
  have hnd := nodup_keysAL_computeNetBalances splits settlements
  intro hmem
  unfold calculate_balances projectForUser at hmem
  rw [mem_keys_project_aux] at hmem
  rcases hmem with h | ⟨t, ht, ⟨h1, h2⟩ | ⟨h1, _, h3⟩⟩
  · simp [keysAL] at h
  · exact (simplifyDebts_valid hnd t ht).1 (h1.trans h2.symm)
  · exact h1 h3

/-- Helper for C1: on any genuine mapping, a user absent from the walk's
final unprocessed state ends within `ε` once the emitted transfers are
applied as settlements. -/
theorem settles_processed (net : List (UserId × ℚ))
    (hnd : (keysAL net).Nodup) (u : UserId)
    (hd : u ∉ keysAL (walkFinalDebtors net))
    (hc : u ∉ keysAL (walkFinalCreditors net)) :
    |lookupAL (applyAsSettlements net (simplifyDebts net)) u| ≤ eps := by
  rw [lookupAL_applyAsSettlements]
  have hknd := keyInv_of_nodup hnd
  by_cases hu : u ∈ keysAL (debtorsOf net ++ creditorsOf net)
  · have hfin : u ∉ keysAL
        ((simpWalkSt ((debtorsOf net).length + (creditorsOf net).length)
          (debtorsOf net) (creditorsOf net)).2.1 ++
         (simpWalkSt ((debtorsOf net).length + (creditorsOf net).length)
          (debtorsOf net) (creditorsOf net)).2.2) := by
      rw [keysAL_append]
      intro hmem
      rcases List.mem_append.mp hmem with h | h
      · exact hd h
      · exact hc h
    have hres := walk_residual _ _ _ hknd u hu hfin
    have hlkeq : lookupAL (debtorsOf net ++ creditorsOf net) u =
        lookupAL net u := by
      rw [keysAL_append] at hu
      rcases List.mem_append.mp hu with h | h
      · obtain ⟨v, hv⟩ := exists_val_of_mem_keysAL h
        rw [lookupAL_eq_of_mem hknd (List.mem_append_left _ hv),
          lookupAL_eq_of_mem hnd (mem_debtorsOf.mp hv).1]
      · obtain ⟨v, hv⟩ := exists_val_of_mem_keysAL h
        rw [lookupAL_eq_of_mem hknd (List.mem_append_right _ hv),
          lookupAL_eq_of_mem hnd (mem_creditorsOf.mp hv).1]
    rw [simplifyDebts_eq_walk, ← hlkeq]
    exact hres
  · have hdz : deltaOf (simplifyDebts net) u = 0 := by
      apply deltaOf_eq_zero
      intro t ht
      rcases simplifyDebts_endpoints ht with ⟨h1, h2⟩
      rw [keysAL_append] at hu
      constructor
      · intro he
        exact hu (List.mem_append_left _ (he ▸ h1))
      · intro he
        exact hu (List.mem_append_right _ (he ▸ h2))
    rw [hdz, add_zero]
    rw [keysAL_append] at hu
    by_cases hin : u ∈ keysAL net
    · have hv := exists_of_mem_keysAL hin
      have h1 : ¬ (lookupAL net u < -eps) := fun hlt =>
        hu (List.mem_append_left _
          (mem_keysAL_of_mem (mem_debtorsOf.mpr ⟨hv, hlt⟩)))
      have h2 : ¬ (eps < lookupAL net u) := fun hlt =>
        hu (List.mem_append_right _
          (mem_keysAL_of_mem (mem_creditorsOf.mpr ⟨hv, hlt⟩)))
      rw [abs_le]
      exact ⟨by linarith [not_lt.mp h1], not_lt.mp h2⟩
    · rw [lookupAL_eq_zero_of_not_mem hin]
      simpa using le_of_lt eps_pos

/-- Claim C1, counterexample: settlements alone give net balances
`{2 ↦ 0.991, 0 ↦ −1, 3 ↦ 0.891, 1 ↦ −0.9, 4 ↦ 0.018}` (sum exactly `0`),
yet after applying every emitted transfer as a settlement, user `4` — an
unprocessed creditor left behind when the debtor cursor exhausted — retains
balance `0.018`, whose absolute value exceeds `ε = 0.01`. -/
theorem C1_counterexample :
    |sumAL (computeNetBalances []
      [((2 : UserId), (0 : UserId), (991 / 1000 : ℚ)), (3, 0, 9 / 1000),
        (3, 1, 882 / 1000), (4, 1, 18 / 1000)])| ≤ eps ∧
    ¬ |lookupAL (applyAsSettlements
        (computeNetBalances []
          [((2 : UserId), (0 : UserId), (991 / 1000 : ℚ)), (3, 0, 9 / 1000),
            (3, 1, 882 / 1000), (4, 1, 18 / 1000)])
        (simplifyDebts (computeNetBalances []
          [((2 : UserId), (0 : UserId), (991 / 1000 : ℚ)), (3, 0, 9 / 1000),
            (3, 1, 882 / 1000), (4, 1, 18 / 1000)]))) 4| ≤ eps := by
  have hnet : computeNetBalances []
      [((2 : UserId), (0 : UserId), (991 / 1000 : ℚ)), (3, 0, 9 / 1000),
        (3, 1, 882 / 1000), (4, 1, 18 / 1000)] =
      [(2, 991 / 1000), (0, -1), (3, 891 / 1000), (1, -9 / 10), (4, 9 / 500)] := by
    norm_num [computeNetBalances, applySettlement, updAL]
  rw [hnet]
  have hts : simplifyDebts
      [((2 : UserId), (991 / 1000 : ℚ)), (0, -1), (3, 891 / 1000),
        (1, -9 / 10), (4, 9 / 500)] =
      [(0, 2, 991 / 1000), (1, 3, 891 / 1000)] := by
    norm_num [simplifyDebts, simpLoopIdx, debtorsOf, creditorsOf,
      List.insertionSort, List.orderedInsert, eps, abs]
  rw [hts]
  constructor
  · norm_num [sumAL, eps]
  · norm_num [applyAsSettlements, applySettlement, updAL, lookupAL, eps, abs]

/-- Claim C1, amended: for splits and settlements whose aggregated net
balances sum to `0` within `ε`, applying every emitted transfer as a
settlement drives every user's balance to within `ε` of `0` — EXCEPT
possibly for users still sitting in the walk's final unprocessed
debtor/creditor suffixes (left behind when the opposite cursor exhausted);
the counterexample shows such a leftover creditor can exceed `ε`. -/
theorem C1_transfers_settle_processed (splits settlements : List Row)
    (u : UserId)
    (hsum : |sumAL (computeNetBalances splits settlements)| ≤ eps)
    (hd : u ∉ keysAL (walkFinalDebtors (computeNetBalances splits settlements)))
    (hc : u ∉ keysAL (walkFinalCreditors (computeNetBalances splits settlements))) :
    |lookupAL (applyAsSettlements (computeNetBalances splits settlements)
      (simplifyDebts (computeNetBalances splits settlements))) u| ≤ eps :=
  settles_processed _ (nodup_keysAL_computeNetBalances splits settlements) u hd hc

/-- Witness for C1 on the spec's Scenario 1: one split, user 0 fully
processed by the walk. -/
theorem C1_transfers_settle_processed_witness :
    (|sumAL (computeNetBalances [((0 : UserId), (1 : UserId), (50 : ℚ))] [])| ≤ eps ∧
     (0 : UserId) ∉ keysAL (walkFinalDebtors
       (computeNetBalances [((0 : UserId), (1 : UserId), (50 : ℚ))] [])) ∧
     (0 : UserId) ∉ keysAL (walkFinalCreditors
       (computeNetBalances [((0 : UserId), (1 : UserId), (50 : ℚ))] []))) ∧
    |lookupAL (applyAsSettlements
      (computeNetBalances [((0 : UserId), (1 : UserId), (50 : ℚ))] [])
      (simplifyDebts (computeNetBalances
        [((0 : UserId), (1 : UserId), (50 : ℚ))] []))) 0| ≤ eps :=
  ⟨⟨by norm_num [computeNetBalances, applySplit, updAL, sumAL, eps],
    by norm_num [computeNetBalances, applySplit, updAL, walkFinalDebtors,
      debtorsOf, creditorsOf, List.insertionSort, List.orderedInsert,
      simpWalkSt, eps, abs, keysAL],
    by norm_num [computeNetBalances, applySplit, updAL, walkFinalCreditors,
      debtorsOf, creditorsOf, List.insertionSort, List.orderedInsert,
      simpWalkSt, eps, abs, keysAL]⟩,
   C1_transfers_settle_processed [((0 : UserId), (1 : UserId), (50 : ℚ))] [] 0
    (by norm_num [computeNetBalances, applySplit, updAL, sumAL, eps])
    (by norm_num [computeNetBalances, applySplit, updAL, walkFinalDebtors,
      debtorsOf, creditorsOf, List.insertionSort, List.orderedInsert,
      simpWalkSt, eps, abs, keysAL])
    (by norm_num [computeNetBalances, applySplit, updAL, walkFinalCreditors,
      debtorsOf, creditorsOf, List.insertionSort, List.orderedInsert,
      simpWalkSt, eps, abs, keysAL])⟩

/-- Claim C6: for every fixed set of splits and settlements and all users
`A`, `B`: if `A` appears in the projector's output for observer `B` with
value `v`, then `B` appears in the projector's output for observer `A`
with value `−v` (within `ε`; in fact exactly). -/
theorem C6_sign_symmetry (splits settlements : List Row) (A B : UserId)
    (v : ℚ)
    (hkey : A ∈ keysAL (calculate_balances splits settlements B))
    (hval : lookupAL (calculate_balances splits settlements B) A = v) :
    B ∈ keysAL (calculate_balances splits settlements A) ∧
      |lookupAL (calculate_balances splits settlements A) B - (-v)| ≤ eps := by
  have hnd := nodup_keysAL_computeNetBalances splits settlements
  have hpw := simplifyDebts_pairwise hnd
  unfold calculate_balances projectForUser at hkey hval ⊢
  rw [mem_keys_project_aux] at hkey
  rw [lookup_project_aux] at hval
  simp only [lookupAL, zero_add] at hval
  rcases hkey with hfalse | ⟨t0, ht0, hcase⟩
  · simp [keysAL] at hfalse
  obtain ⟨hD, hC⟩ := simplifyDebts_endpoints ht0
  rcases hcase with ⟨hc1, hc2⟩ | ⟨hc1, hc2, hc3⟩
  · -- the touching transfer is t0 = (B, A, a): B is a debtor, A a creditor
    have hBD : B ∈ keysAL (debtorsOf (computeNetBalances splits settlements)) :=
      hc1 ▸ hD
    have hAC : A ∈ keysAL (creditorsOf (computeNetBalances splits settlements)) :=
      hc2 ▸ hC
    have hAB : A ≠ B := fun he =>
      debtor_creditor_disjoint hnd (by rw [he]; exact hBD) hAC
    have hzf : ∀ t ∈ simplifyDebts (computeNetBalances splits settlements),
        (t.1, t.2.1) ≠ (t0.1, t0.2.1) →
        (if t.1 = B then (if t.2.1 = A then -t.2.2 else 0)
          else if t.2.1 = B then (if t.1 = A then t.2.2 else 0) else 0) = 0 := by
      intro t ht hpne
      obtain ⟨htD, htC⟩ := simplifyDebts_endpoints ht
      by_cases h1 : t.1 = B
      · by_cases h2 : t.2.1 = A
        · exact absurd (by rw [h1, h2, hc1, hc2]) hpne
        · rw [if_pos h1, if_neg h2]
      · rw [if_neg h1]
        by_cases h2 : t.2.1 = B
        · by_cases h3 : t.1 = A
          · exact absurd (debtor_creditor_disjoint hnd (h3 ▸ htD) hAC) id
          · rw [if_pos h2, if_neg h3]
        · rw [if_neg h2]
    have hsumf := sum_contrib_single
      (fun t => if t.1 = B then (if t.2.1 = A then -t.2.2 else 0)
        else if t.2.1 = B then (if t.1 = A then t.2.2 else 0) else 0)
      (simplifyDebts (computeNetBalances splits settlements)) t0 ht0 hpw hzf
    rw [hsumf] at hval
    simp only [] at hval
    have hft0 : (if t0.1 = B then (if t0.2.1 = A then -t0.2.2 else 0)
        else if t0.2.1 = B then (if t0.1 = A then t0.2.2 else 0) else 0) =
        -t0.2.2 := by
      rw [if_pos hc1, if_pos hc2]
    rw [hft0] at hval
    constructor
    · rw [mem_keys_project_aux]
      exact Or.inr ⟨t0, ht0,
        Or.inr ⟨fun he => hAB (he.symm.trans hc1), hc2, hc1⟩⟩
    · rw [lookup_project_aux]
      simp only [lookupAL, zero_add]
      have hzg : ∀ t ∈ simplifyDebts (computeNetBalances splits settlements),
          (t.1, t.2.1) ≠ (t0.1, t0.2.1) →
          (if t.1 = A then (if t.2.1 = B then -t.2.2 else 0)
            else if t.2.1 = A then (if t.1 = B then t.2.2 else 0) else 0) = 0 := by
        intro t ht hpne
        obtain ⟨htD, htC⟩ := simplifyDebts_endpoints ht
        by_cases h1 : t.1 = A
        · exact absurd (debtor_creditor_disjoint hnd (h1 ▸ htD) hAC) id
        · rw [if_neg h1]
          by_cases h2 : t.2.1 = A
          · by_cases h3 : t.1 = B
            · exact absurd (by rw [h3, h2, hc1, hc2]) hpne
            · rw [if_pos h2, if_neg h3]
          · rw [if_neg h2]
      have hsumg := sum_contrib_single
        (fun t => if t.1 = A then (if t.2.1 = B then -t.2.2 else 0)
          else if t.2.1 = A then (if t.1 = B then t.2.2 else 0) else 0)
        (simplifyDebts (computeNetBalances splits settlements)) t0 ht0 hpw hzg
      rw [hsumg]
      simp only []
      have hgt0 : (if t0.1 = A then (if t0.2.1 = B then -t0.2.2 else 0)
          else if t0.2.1 = A then (if t0.1 = B then t0.2.2 else 0) else 0) =
          t0.2.2 := by
        rw [if_neg fun he => hAB (he.symm.trans hc1), if_pos hc2, if_pos hc1]
      rw [hgt0, ← hval]
      have he0 : t0.2.2 - - -t0.2.2 = 0 := by ring
      rw [he0]
      simpa using le_of_lt eps_pos
  · -- the touching transfer is t0 = (A, B, a): A is a debtor, B a creditor
    have hAD : A ∈ keysAL (debtorsOf (computeNetBalances splits settlements)) :=
      hc3 ▸ hD
    have hBC : B ∈ keysAL (creditorsOf (computeNetBalances splits settlements)) :=
      hc2 ▸ hC
    have hAB : A ≠ B := fun he =>
      debtor_creditor_disjoint hnd hAD (by rw [he]; exact hBC)
    have hzf : ∀ t ∈ simplifyDebts (computeNetBalances splits settlements),
        (t.1, t.2.1) ≠ (t0.1, t0.2.1) →
        (if t.1 = B then (if t.2.1 = A then -t.2.2 else 0)
          else if t.2.1 = B then (if t.1 = A then t.2.2 else 0) else 0) = 0 := by
      intro t ht hpne
      obtain ⟨htD, htC⟩ := simplifyDebts_endpoints ht
      by_cases h1 : t.1 = B
      · exact absurd (debtor_creditor_disjoint hnd (h1 ▸ htD) hBC) id
      · rw [if_neg h1]
        by_cases h2 : t.2.1 = B
        · by_cases h3 : t.1 = A
          · exact absurd (by rw [h3, h2, hc3, hc2]) hpne
          · rw [if_pos h2, if_neg h3]
        · rw [if_neg h2]
    have hsumf := sum_contrib_single
      (fun t => if t.1 = B then (if t.2.1 = A then -t.2.2 else 0)
        else if t.2.1 = B then (if t.1 = A then t.2.2 else 0) else 0)
      (simplifyDebts (computeNetBalances splits settlements)) t0 ht0 hpw hzf
    rw [hsumf] at hval
    simp only [] at hval
    have hft0 : (if t0.1 = B then (if t0.2.1 = A then -t0.2.2 else 0)
        else if t0.2.1 = B then (if t0.1 = A then t0.2.2 else 0) else 0) =
        t0.2.2 := by
      rw [if_neg hc1, if_pos hc2, if_pos hc3]
    rw [hft0] at hval
    constructor
    · rw [mem_keys_project_aux]
      exact Or.inr ⟨t0, ht0, Or.inl ⟨hc3, hc2⟩⟩
    · rw [lookup_project_aux]
      simp only [lookupAL, zero_add]
      have hzg : ∀ t ∈ simplifyDebts (computeNetBalances splits settlements),
          (t.1, t.2.1) ≠ (t0.1, t0.2.1) →
          (if t.1 = A then (if t.2.1 = B then -t.2.2 else 0)
            else if t.2.1 = A then (if t.1 = B then t.2.2 else 0) else 0) = 0 := by
        intro t ht hpne
        obtain ⟨htD, htC⟩ := simplifyDebts_endpoints ht
        by_cases h1 : t.1 = A
        · by_cases h2 : t.2.1 = B
          · exact absurd (by rw [h1, h2, hc3, hc2]) hpne
          · rw [if_pos h1, if_neg h2]
        · rw [if_neg h1]
          by_cases h2 : t.2.1 = A
          · exact absurd (debtor_creditor_disjoint hnd hAD (h2 ▸ htC)) id
          · rw [if_neg h2]
      have hsumg := sum_contrib_single
        (fun t => if t.1 = A then (if t.2.1 = B then -t.2.2 else 0)
          else if t.2.1 = A then (if t.1 = B then t.2.2 else 0) else 0)
        (simplifyDebts (computeNetBalances splits settlements)) t0 ht0 hpw hzg
      rw [hsumg]
      simp only []
      have hgt0 : (if t0.1 = A then (if t0.2.1 = B then -t0.2.2 else 0)
          else if t0.2.1 = A then (if t0.1 = B then t0.2.2 else 0) else 0) =
          -t0.2.2 := by
        rw [if_pos hc3, if_pos hc2]
      rw [hgt0, ← hval]
      have he0 : -t0.2.2 - -t0.2.2 = 0 := by ring
      rw [he0]
      simpa using le_of_lt eps_pos

/-- Witness for C6 on the spec's Scenario 1: observer 0 sees `{1 ↦ 50}`,
observer 1 sees `{0 ↦ −50}`. -/
theorem C6_sign_symmetry_witness :
    ((1 : UserId) ∈ keysAL (calculate_balances
        [((0 : UserId), (1 : UserId), (50 : ℚ))] [] 0) ∧
     lookupAL (calculate_balances
        [((0 : UserId), (1 : UserId), (50 : ℚ))] [] 0) 1 = 50) ∧
    (0 : UserId) ∈ keysAL (calculate_balances
        [((0 : UserId), (1 : UserId), (50 : ℚ))] [] 1) ∧
      |lookupAL (calculate_balances
        [((0 : UserId), (1 : UserId), (50 : ℚ))] [] 1) 0 - -(50 : ℚ)| ≤ eps :=
  ⟨⟨by norm_num [calculate_balances, computeNetBalances, applySplit, updAL,
      simplifyDebts, simpLoopIdx, debtorsOf, creditorsOf, List.insertionSort,
      List.orderedInsert, projectForUser, projectStep, eps, abs, keysAL],
    by norm_num [calculate_balances, computeNetBalances, applySplit, updAL,
      simplifyDebts, simpLoopIdx, debtorsOf, creditorsOf, List.insertionSort,
      List.orderedInsert, projectForUser, projectStep, eps, abs, lookupAL]⟩,
   C6_sign_symmetry [((0 : UserId), (1 : UserId), (50 : ℚ))] [] 1 0 50
    (by norm_num [calculate_balances, computeNetBalances, applySplit, updAL,
      simplifyDebts, simpLoopIdx, debtorsOf, creditorsOf, List.insertionSort,
      List.orderedInsert, projectForUser, projectStep, eps, abs, keysAL])
    (by norm_num [calculate_balances, computeNetBalances, applySplit, updAL,
      simplifyDebts, simpLoopIdx, debtorsOf, creditorsOf, List.insertionSort,
      List.orderedInsert, projectForUser, projectStep, eps, abs, lookupAL])⟩

end ExpenseShare
